import Mathlib

/-!
Shallow embedding of the drop-elaboration MIR transform
(`prusti-viper/src/encoder/mir/procedures/encoder/elaborate_drops/mir_transform.rs`).

Move paths, places, locals, spans and operands are abstracted as natural
numbers; the externally supplied collaborators (move-path lookup, the two
fixpoint dataflow cursors, the deep-drop-children enumerator, the
per-location drop-flag effects, and the recursive drop-generation service)
are fields of an `Env` record, exactly as the pass consumes them through
its imports.  The pass itself — dead-unwind pruning, flag collection, drop
elaboration, replace desugaring and the four flag-propagation sweeps — is
translated function by function from the source.
-/

namespace ElabDrops

abbrev Place := Nat

abbrev Local := Nat

abbrev MovePath := Nat

abbrev Span := Nat

abbrev Operand := Nat

/-- A MIR location: basic-block index plus statement index (the terminator
sits at index `statements.length`). -/
structure Location where
  block : Nat
  statementIndex : Nat
deriving DecidableEq, Inhabited

/-- State recorded in a drop flag (`DropFlagState` in the source). -/
inductive DropFlagState
  | Absent
  | Present
deriving DecidableEq, Inhabited

/-- Boolean value written for a drop-flag state (`DropFlagState::value`). -/
def DropFlagState.value : DropFlagState → Bool
  | .Present => true
  | .Absent => false

/-- Query mode of the classifier (`DropFlagMode`). -/
inductive DropFlagMode
  | Shallow
  | Deep
deriving DecidableEq, Inhabited

/-- The four drop styles (`DropStyle`). -/
inductive DropStyle
  | Dead
  | Static
  | Conditional
  | Open
deriving DecidableEq, Inhabited

/-- Result of the move-path reverse lookup (`LookupResult`). -/
inductive LookupResult
  | Exact (p : MovePath)
  | Parent (p : Option MovePath)
deriving DecidableEq, Inhabited

/-- Unwind continuation handed to the drop-generation service (`Unwind`). -/
inductive UnwindAction
  | To (bb : Nat)
  | InCleanup
deriving DecidableEq, Inhabited

/-- Statement kinds: the pass only ever builds `Assign` statements; all other
statements are opaque. -/
inductive StatementKind
  | assign (place : Place) (value : Operand)
  | other (tag : Nat)
deriving DecidableEq, Inhabited

/-- A MIR statement with its source span. -/
structure Statement where
  span : Span
  kind : StatementKind
deriving DecidableEq, Inhabited

/-- Terminator kinds relevant to the pass; everything else is `other`. -/
inductive TerminatorKind
  | drop (place : Place) (target : Nat) (unwind : Option Nat)
  | dropAndReplace (place : Place) (value : Operand) (target : Nat) (unwind : Option Nat)
  | call (destination : Place) (target : Option Nat) (cleanup : Option Nat)
  | goto (target : Nat)
  | resume
  | other (tag : Nat)
deriving DecidableEq, Inhabited

/-- A terminator with its source span. -/
structure Terminator where
  span : Span
  kind : TerminatorKind
deriving DecidableEq, Inhabited

/-- A basic block: statements, terminator, cleanup marker (`BasicBlockData`). -/
structure BlockData where
  statements : List Statement
  terminator : Terminator
  isCleanup : Bool
deriving DecidableEq, Inhabited

/-- A call made to the external drop-generation service `elaborate_drop`:
source span, dropped place, its move path, the success continuation, the
unwind continuation and the block being elaborated. -/
structure DropSvcCall where
  span : Span
  place : Place
  path : MovePath
  target : Nat
  unwind : UnwindAction
  bb : Nat
deriving DecidableEq, Inhabited

/-- Modelled from the spec: the deferred CFG patch (`MirPatch`, supplied by
`prusti_interface`, outside this file) — an accumulating, append-only log of
new blocks, new locals, statement insertions and terminator replacements;
fresh block and local ids continue the original body's numbering. -/
structure MirPatch where
  bodyBlockCount : Nat
  bodyLocalCount : Nat
  bodySpan : Span
  newBlocks : List BlockData
  newLocals : Nat
  assigns : List (Location × Local × Bool)
  termPatches : List (Nat × TerminatorKind)
  resumeCache : Option Nat
deriving DecidableEq, Inhabited

/-- Modelled from the spec: `MirPatch::new_block` appends a block and returns
its id (original block count plus blocks already added). -/
def MirPatch.newBlock (p : MirPatch) (d : BlockData) : Nat × MirPatch :=
  (p.bodyBlockCount + p.newBlocks.length, { p with newBlocks := p.newBlocks ++ [d] })

/-- Modelled from the spec: `MirPatch::new_internal` allocates a fresh local. -/
def MirPatch.newInternal (p : MirPatch) : Local × MirPatch :=
  (p.bodyLocalCount + p.newLocals, { p with newLocals := p.newLocals + 1 })

/-- Modelled from the spec: `MirPatch::add_assign` records a statement
assigning a constant boolean to a flag local at a location. -/
def MirPatch.addAssign (p : MirPatch) (loc : Location) (flag : Local) (val : Bool) : MirPatch :=
  { p with assigns := p.assigns ++ [(loc, flag, val)] }

/-- Modelled from the spec: `MirPatch::patch_terminator` records a terminator
replacement for a block. -/
def MirPatch.patchTerminator (p : MirPatch) (bb : Nat) (k : TerminatorKind) : MirPatch :=
  { p with termPatches := p.termPatches ++ [(bb, k)] }

/-- Modelled from the spec: `MirPatch::is_patched` — whether a terminator
replacement was recorded for the block. -/
def MirPatch.isPatched (p : MirPatch) (bb : Nat) : Bool :=
  p.termPatches.any (fun e => e.1 == bb)

/-- Modelled from the spec: `MirPatch::resume_block` — the shared synthetic
resume block, created on first demand and cached. -/
def MirPatch.resumeBlock (p : MirPatch) : Nat × MirPatch :=
  match p.resumeCache with
  | some b => (b, p)
  | none =>
      let r := p.newBlock ⟨[], ⟨p.bodySpan, .resume⟩, true⟩
      (r.1, { r.2 with resumeCache := some r.1 })

/-- The pass's external collaborators and the function body, packaged as the
pass consumes them: the CFG, the move-path index, the two fixpoint dataflow
results (queried at a location after `seek_before_primary_effect`), the
deep-drop / all-children enumerators, the dereference side table, the
per-location and function-entry drop-flag effects, the reachability bitset,
and the abstract patch fragments produced by the drop-generation service. -/
structure Env where
  blocks : List BlockData
  localCount : Nat
  bodySpan : Span
  reachable : Nat → Bool
  derefer : Place → Option Place
  revLookup : Place → LookupResult
  dropChildren : MovePath → List MovePath
  allChildren : MovePath → List MovePath
  inits : Location → MovePath → Bool
  uninits : Location → MovePath → Bool
  placeLocal : Place → Local
  isDerefTemp : Local → Bool
  replaceDesugar : Span → Bool
  locFlagEffects : Location → List (MovePath × DropFlagState)
  entryFlagEffects : List (MovePath × DropFlagState)
  svcNewBlocks : DropSvcCall → List BlockData
  svcAssigns : DropSvcCall → List (Location × Local × Bool)
  svcTermPatches : DropSvcCall → List (Nat × TerminatorKind)
  svcNewLocals : DropSvcCall → Nat

/-- Mutable state of `ElaborateDropsCtxt`: the lazily created drop flags
(insertion-ordered association list), the accumulated patch, the delayed
diagnostics emitted so far, and the log of drop-generation service calls. -/
structure Ctxt where
  flags : List (MovePath × Local)
  patch : MirPatch
  diags : List Span
  svcCalls : List DropSvcCall
deriving DecidableEq, Inhabited

/-- Association-list lookup used for the drop-flag store. -/
def lookupFlag : List (MovePath × Local) → MovePath → Option Local
  | [], _ => none
  | kv :: rest, p => if kv.1 = p then some kv.2 else lookupFlag rest p

/-- Initial context built by `run_pass`: no flags, a fresh patch, no
diagnostics, no service calls. -/
def initCtxt (env : Env) : Ctxt :=
  ⟨[], ⟨env.blocks.length, env.localCount, env.bodySpan, [], 0, [], [], none⟩, [], []⟩

/-- `ElaborateDropsCtxt::create_drop_flag`: allocate a boolean local for the
path unless one already exists (idempotent). -/
def createDropFlag (c : Ctxt) (index : MovePath) : Ctxt :=
  match lookupFlag c.flags index with
  | some _ => c
  | none =>
      let r := c.patch.newInternal
      { c with flags := c.flags ++ [(index, r.1)], patch := r.2 }

/-- `ElaborateDropsCtxt::set_drop_flag`: if the path has a flag, record an
assignment of the state's boolean value at the location. -/
def setDropFlag (c : Ctxt) (loc : Location) (path : MovePath) (val : DropFlagState) : Ctxt :=
  match lookupFlag c.flags path with
  | some flag => { c with patch := c.patch.addAssign loc flag val.value }
  | none => c

/-- `InitializationData::maybe_live_dead`: the (maybe-initialized,
maybe-uninitialized) pair for a path at the cursor position. -/
def maybeLiveDead (env : Env) (loc : Location) (p : MovePath) : Bool × Bool :=
  (env.inits loc p, env.uninits loc p)

/-- Location of a block's terminator (`Body::terminator_loc`). -/
def terminatorLoc (bb : Nat) (data : BlockData) : Location :=
  ⟨bb, data.statements.length⟩

/-- `Elaborator::drop_style`: classify a move path in shallow or deep mode.
Deep mode folds the (live, dead) bits and a member count over the deep-drop
subtree, exactly as the source accumulates them. -/
def dropStyle (env : Env) (loc : Location) (path : MovePath) (mode : DropFlagMode) : DropStyle :=
  let q : (Bool × Bool) × Bool :=
    match mode with
    | .Shallow => (maybeLiveDead env loc path, false)
    | .Deep =>
        let acc := (env.dropChildren path).foldl
          (fun (a : (Bool × Bool) × Nat) child =>
            let ld := maybeLiveDead env loc child
            ((a.1.1 || ld.1, a.1.2 || ld.2), a.2 + 1))
          ((false, false), 0)
        (acc.1, decide (acc.2 ≠ 1))
  match q.1.1, q.1.2, q.2 with
  | false, _, _ => .Dead
  | true, false, _ => .Static
  | true, true, false => .Conditional
  | true, true, true => .Open

/-- Place of a destruction or drop-and-replace marker, if the terminator is
one. -/
def markerPlace : TerminatorKind → Option Place
  | .drop pl _ _ => some pl
  | .dropAndReplace pl _ _ _ => some pl
  | _ => none

/-- Place of a destruction or drop-and-replace marker that currently has an
unwind successor (the markers `remove_dead_unwinds` considers). -/
def unwindPlace : TerminatorKind → Option Place
  | .drop pl _ (some _) => some pl
  | .dropAndReplace pl _ _ (some _) => some pl
  | _ => none

/-- The `maybe_live` accumulation of `remove_dead_unwinds`: fold
maybe-initialized over the deep-drop children. -/
def anyChildInit (env : Env) (loc : Location) (path : MovePath) : Bool :=
  (env.dropChildren path).foldl (fun acc child => acc || env.inits loc child) false

/-- Whether `remove_dead_unwinds` marks this block's unwind edge dead: the
marker has an unwind successor, its (dereferenced) place resolves to an exact
move path, and no deep-drop child is maybe-initialized before the
terminator. -/
def isDeadUnwind (env : Env) (bb : Nat) (data : BlockData) : Bool :=
  match unwindPlace data.terminator.kind with
  | none => false
  | some pl =>
      let place := (env.derefer pl).getD pl
      match env.revLookup place with
      | .Exact path => !anyChildInit env (terminatorLoc bb data) path
      | _ => false

/-- The `dead_unwinds` list collected by `remove_dead_unwinds`, walking every
block of the body in order. -/
def deadUnwindsAux (env : Env) : Nat → List BlockData → List Nat
  | _, [] => []
  | bb, d :: rest =>
      (if isDeadUnwind env bb d then [bb] else []) ++ deadUnwindsAux env (bb + 1) rest

/-- `Terminator::unwind_mut` set to `None` for the terminator kinds that carry
an unwind edge. -/
def clearUnwind : TerminatorKind → TerminatorKind
  | .drop pl t _ => .drop pl t none
  | .dropAndReplace pl v t _ => .dropAndReplace pl v t none
  | .call d t _ => .call d t none
  | k => k

/-- Second half of `remove_dead_unwinds`: clear the unwind edge of every block
in the dead list. -/
def removeDeadUnwindsAux (dead : List Nat) : Nat → List BlockData → List BlockData
  | _, [] => []
  | bb, d :: rest =>
      (if bb ∈ dead then
        { d with terminator := { d.terminator with kind := clearUnwind d.terminator.kind } }
      else d) :: removeDeadUnwindsAux dead (bb + 1) rest

/-- `remove_dead_unwinds`: collect the dead-unwind blocks, then (unless the
list is empty) clear their unwind edges in place. -/
def removeDeadUnwinds (env : Env) : List BlockData :=
  let dead := deadUnwindsAux env 0 env.blocks
  if dead.isEmpty then env.blocks else removeDeadUnwindsAux dead 0 env.blocks

/-- Body of the `collect_drop_flags` loop for one block: skip unreachable
blocks and non-markers; on an exact path, create a flag for every deep-drop
child that is maybe-live and maybe-dead before the terminator; on a
parent-only resolution, skip dereference temporaries silently and raise a
delayed diagnostic when the ancestor is maybe-dead. -/
def collectBlock (env : Env) (c : Ctxt) (bb : Nat) (data : BlockData) : Ctxt :=
  if env.reachable bb then
    match markerPlace data.terminator.kind with
    | none => c
    | some pl =>
        let place := (env.derefer pl).getD pl
        let loc := terminatorLoc bb data
        match env.revLookup place with
        | .Exact path =>
            (env.dropChildren path).foldl
              (fun c child =>
                let ld := maybeLiveDead env loc child
                if ld.1 && ld.2 then createDropFlag c child else c) c
        | .Parent none => c
        | .Parent (some parent) =>
            if env.isDerefTemp (env.placeLocal place) then c
            else if (maybeLiveDead env loc parent).2 then
              { c with diags := c.diags ++ [data.terminator.span] }
            else c
  else c

/-- `collect_drop_flags`, iterating the body's blocks in index order. -/
def collectDropFlagsAux (env : Env) : Ctxt → Nat → List BlockData → Ctxt
  | c, _, [] => c
  | c, bb, d :: rest => collectDropFlagsAux env (collectBlock env c bb d) (bb + 1) rest

/-- `ElaborateDropsCtxt::collect_drop_flags`. -/
def collectDropFlags (env : Env) (c : Ctxt) : Ctxt :=
  collectDropFlagsAux env c 0 env.blocks

/-- Modelled from the spec: applying the external drop-generation service
`elaborate_drop` (defined in the repository's `mir_dataflow` module, outside
this file).  The service receives the patch through the elaborator capability
object and can only append to it: the fragments it contributes for a given
call are abstracted as environment functions. -/
def applySvc (env : Env) (call : DropSvcCall) (p : MirPatch) : MirPatch :=
  { p with
      newBlocks := p.newBlocks ++ env.svcNewBlocks call,
      assigns := p.assigns ++ env.svcAssigns call,
      termPatches := p.termPatches ++ env.svcTermPatches call,
      newLocals := p.newLocals + env.svcNewLocals call }

/-- `ElaborateDropsCtxt::elaborate_replace`: desugar a drop-and-replace
marker.  Two blocks are synthesized — a cleanup one jumping to the unwind
successor (or the shared resume block) and a normal one jumping to the
target — each holding the replacement assignment; on an exact path the drop
is elaborated with these continuations and every subtree flag is forced
present at index 0 of both; on a parent-only resolution the marker is
rewritten to an unconditional drop through the two blocks. -/
def elaborateReplace (env : Env) (c : Ctxt) (loc : Location) (place : Place) (value : Operand)
    (target : Nat) (unwind : Option Nat) : Option Ctxt :=
  let bb := loc.block
  match env.blocks.get? bb with
  | none => none
  | some data =>
      if data.isCleanup then none
      else
        let term := data.terminator
        let assignStmt : Statement := ⟨term.span, .assign place value⟩
        let r0 : Nat × MirPatch :=
          match unwind with
          | some u => (u, c.patch)
          | none => c.patch.resumeBlock
        let r1 := r0.2.newBlock ⟨[assignStmt], ⟨term.span, .goto r0.1⟩, true⟩
        let r2 := r1.2.newBlock ⟨[assignStmt], ⟨term.span, .goto target⟩, false⟩
        match env.revLookup place with
        | .Exact path =>
            let call : DropSvcCall := ⟨term.span, place, path, r2.1, .To r1.1, bb⟩
            let c1 : Ctxt :=
              { c with patch := applySvc env call r2.2, svcCalls := c.svcCalls ++ [call] }
            some ((env.allChildren path).foldl
              (fun s child =>
                setDropFlag (setDropFlag s ⟨r2.1, 0⟩ child .Present) ⟨r1.1, 0⟩ child .Present)
              c1)
        | .Parent _ =>
            some { c with patch := r2.2.patchTerminator bb (.drop place r2.1 (some r1.1)) }

/-- Body of the `elaborate_drops` loop for one block: skip unreachable
blocks; force the shared resume block; elaborate destruction markers with an
exact path through the drop-generation service (in-cleanup when the block is
a cleanup block), report parent-resolved drops whose span is not a replace
desugaring, and desugar drop-and-replace markers (never legal in cleanup
blocks). -/
def elaborateDropBlock (env : Env) (c0 : Ctxt) (bb : Nat) (data : BlockData) : Option Ctxt :=
  if env.reachable bb then
    let loc := terminatorLoc bb data
    let r := c0.patch.resumeBlock
    let c : Ctxt := { c0 with patch := r.2 }
    match data.terminator.kind with
    | .drop pl target unwind =>
        let place := (env.derefer pl).getD pl
        match env.revLookup place with
        | .Exact path =>
            let uw : UnwindAction :=
              if data.isCleanup then .InCleanup else .To (unwind.getD r.1)
            let call : DropSvcCall := ⟨data.terminator.span, place, path, target, uw, bb⟩
            some { c with patch := applySvc env call c.patch, svcCalls := c.svcCalls ++ [call] }
        | .Parent _ =>
            let c1 :=
              if env.replaceDesugar data.terminator.span then c
              else { c with diags := c.diags ++ [data.terminator.span] }
            if data.isCleanup then none else some c1
    | .dropAndReplace pl value target unwind =>
        if data.isCleanup then none
        else
          let place := (env.derefer pl).getD pl
          elaborateReplace env c loc place value target unwind
    | _ => some c
  else some c0

/-- `elaborate_drops`, iterating the body's blocks in index order. -/
def elaborateDropsAux (env : Env) : Ctxt → Nat → List BlockData → Option Ctxt
  | c, _, [] => some c
  | c, bb, d :: rest =>
      match elaborateDropBlock env c bb d with
      | none => none
      | some c1 => elaborateDropsAux env c1 (bb + 1) rest

/-- `ElaborateDropsCtxt::elaborate_drops`. -/
def elaborateDrops (env : Env) (c : Ctxt) : Option Ctxt :=
  elaborateDropsAux env c 0 env.blocks

/-- `ElaborateDropsCtxt::drop_flags_on_init`: write `false` to every known
flag at the entry location (block 0, statement 0). -/
def dropFlagsOnInit (c : Ctxt) : Ctxt :=
  c.flags.foldl (fun s kv => { s with patch := s.patch.addAssign ⟨0, 0⟩ kv.2 false }) c

/-- Children reached by `on_lookup_result_bits`: all children of the exact
path, nothing on a parent-only resolution. -/
def lookupChildren (env : Env) : LookupResult → List MovePath
  | .Exact p => env.allChildren p
  | .Parent _ => []

/-- Body of the `drop_flags_for_fn_rets` loop for one block: for a reachable
call with both a normal return target and a cleanup successor, set the
destination's flags present at statement 0 of the return block (the block
must not have been patched). -/
def fnRetsBlock (env : Env) (c : Ctxt) (bb : Nat) (data : BlockData) : Option Ctxt :=
  if env.reachable bb then
    match data.terminator.kind with
    | .call dest (some tgt) (some _) =>
        if c.patch.isPatched bb then none
        else
          some ((lookupChildren env (env.revLookup dest)).foldl
            (fun s child => setDropFlag s ⟨tgt, 0⟩ child .Present) c)
    | _ => some c
  else some c

/-- `drop_flags_for_fn_rets`, iterating the body's blocks in index order. -/
def fnRetsAux (env : Env) : Ctxt → Nat → List BlockData → Option Ctxt
  | c, _, [] => some c
  | c, bb, d :: rest =>
      match fnRetsBlock env c bb d with
      | none => none
      | some c1 => fnRetsAux env c1 (bb + 1) rest

/-- `ElaborateDropsCtxt::drop_flags_for_fn_rets`. -/
def dropFlagsForFnRets (env : Env) (c : Ctxt) : Option Ctxt :=
  fnRetsAux env c 0 env.blocks

/-- `ElaborateDropsCtxt::drop_flags_for_args`: seed flags at the entry
location from the externally computed function-entry effects. -/
def dropFlagsForArgs (env : Env) (c : Ctxt) : Ctxt :=
  env.entryFlagEffects.foldl (fun s pe => setDropFlag s ⟨0, 0⟩ pe.1 pe.2) c

/-- Apply the externally computed drop-flag effects at one location:
`Absent` effects always, `Present` ones only when initializations are
allowed. -/
def emitLocEffects (env : Env) (c : Ctxt) (loc : Location) (allowInit : Bool) : Ctxt :=
  (env.locFlagEffects loc).foldl
    (fun s pe =>
      if pe.2 = DropFlagState.Absent ∨ allowInit = true then setDropFlag s loc pe.1 pe.2
      else s) c

/-- One index step of the `drop_flags_for_locs` statement loop: statement
locations always emit both halves; at the terminator index a destruction
marker is skipped, a drop-and-replace marker (which must be patched) defers
the present half, and any other terminator (which must be unpatched, resume
apart) emits normally. -/
def locsStep (env : Env) (bb : Nat) (data : BlockData) (c : Ctxt) (i : Nat) : Option Ctxt :=
  if i = data.statements.length then
    match data.terminator.kind with
    | .drop _ _ _ => some c
    | .dropAndReplace _ _ _ _ =>
        if c.patch.isPatched bb then some (emitLocEffects env c ⟨bb, i⟩ false) else none
    | .resume => some (emitLocEffects env c ⟨bb, i⟩ true)
    | _ =>
        if c.patch.isPatched bb then none else some (emitLocEffects env c ⟨bb, i⟩ true)
  else some (emitLocEffects env c ⟨bb, i⟩ true)

/-- Body of the `drop_flags_for_locs` loop for one block: run the statement
loop over every location, then, for a call with a normal target but no
cleanup successor, mark the destination present at the call's own location
(before the call, avoiding a critical-edge split). -/
def locsBlock (env : Env) (c : Ctxt) (bb : Nat) (data : BlockData) : Option Ctxt :=
  if env.reachable bb then
    match (List.range (data.statements.length + 1)).foldlM (locsStep env bb data) c with
    | none => none
    | some c1 =>
        match data.terminator.kind with
        | .call dest (some _) none =>
            if c1.patch.isPatched bb then none
            else
              let loc := terminatorLoc bb data
              some ((lookupChildren env (env.revLookup dest)).foldl
                (fun s child => setDropFlag s loc child .Present) c1)
        | _ => some c1
  else some c

/-- `drop_flags_for_locs`, iterating the body's blocks in index order. -/
def locsAux (env : Env) : Ctxt → Nat → List BlockData → Option Ctxt
  | c, _, [] => some c
  | c, bb, d :: rest =>
      match locsBlock env c bb d with
      | none => none
      | some c1 => locsAux env c1 (bb + 1) rest

/-- `ElaborateDropsCtxt::drop_flags_for_locs`. -/
def dropFlagsForLocs (env : Env) (c : Ctxt) : Option Ctxt :=
  locsAux env c 0 env.blocks

/-- `ElaborateDropsCtxt::elaborate`: the full phase pipeline — collect the
flags, elaborate the drops, reset all flags at entry, flag call returns,
seed argument flags, and apply per-location effects. -/
def elaborate (env : Env) : Option Ctxt :=
  let c1 := collectDropFlags env (initCtxt env)
  match elaborateDrops env c1 with
  | none => none
  | some c2 =>
      let c3 := dropFlagsOnInit c2
      match dropFlagsForFnRets env c3 with
      | none => none
      | some c4 =>
          let c5 := dropFlagsForArgs env c4
          dropFlagsForLocs env c5

/-- The decision table of spec §4.2 over (live, dead, multi). -/
def classifyTable (live dead multi : Bool) : DropStyle :=
  match live, dead, multi with
  | false, _, _ => .Dead
  | true, false, _ => .Static
  | true, true, false => .Conditional
  | true, true, true => .Open

/-- Union of the maybe-live bits over the deep-drop subtree. -/
def deepLive (env : Env) (loc : Location) (path : MovePath) : Bool :=
  (env.dropChildren path).any (fun x => env.inits loc x)

/-- Union of the maybe-dead bits over the deep-drop subtree. -/
def deepDead (env : Env) (loc : Location) (path : MovePath) : Bool :=
  (env.dropChildren path).any (fun x => env.uninits loc x)

/-- Whether the deep-drop subtree has size other than one. -/
def deepMulti (env : Env) (path : MovePath) : Bool :=
  decide ((env.dropChildren path).length ≠ 1)

/-- A minimal environment all concrete tests refine by record update. -/
def baseEnv : Env where
  blocks := []
  localCount := 3
  bodySpan := 0
  reachable := fun _ => true
  derefer := fun _ => none
  revLookup := fun _ => .Parent none
  dropChildren := fun p => [p]
  allChildren := fun p => [p]
  inits := fun _ _ => false
  uninits := fun _ _ => false
  placeLocal := fun pl => pl
  isDerefTemp := fun _ => false
  replaceDesugar := fun _ => false
  locFlagEffects := fun _ => []
  entryFlagEffects := []
  svcNewBlocks := fun _ => []
  svcAssigns := fun _ => []
  svcTermPatches := fun _ => []
  svcNewLocals := fun _ => 0

/-- A block holding a destruction marker for place 0 with an unwind edge. -/
def dropBlockU : BlockData := ⟨[], ⟨0, .drop 0 1 (some 2)⟩, false⟩

/-- Environment for the C2 witness: one drop marker, exact path, nothing
maybe-initialized, so the unwind edge is removed. -/
def envC2w : Env :=
  { baseEnv with
      blocks := [dropBlockU],
      revLookup := fun pl => if pl = 0 then .Exact 0 else .Parent none }

/-- The contribution of one block to the drop-flag store: the block is
reachable, carries a destruction or drop-and-replace marker whose
(dereferenced) place resolves to an exact move path, and the candidate path
is a deep-drop child that is both maybe-live and maybe-dead just before the
terminator. -/
def CollectContrib (env : Env) (bb : Nat) (data : BlockData) (p : MovePath) : Prop :=
  env.reachable bb = true ∧
  ∃ pl path, markerPlace data.terminator.kind = some pl ∧
    env.revLookup ((env.derefer pl).getD pl) = .Exact path ∧
    p ∈ env.dropChildren path ∧
    env.inits (terminatorLoc bb data) p = true ∧
    env.uninits (terminatorLoc bb data) p = true

/-- The flag writes emitted after elaborating a tracked drop-and-replace:
for every subtree member that has a flag, present-writes at the start of the
new target block and of the new unwind block, in that order. -/
def replaceWrites (flags : List (MovePath × Local)) (tLoc uLoc : Location)
    (children : List MovePath) : List (Location × Local × Bool) :=
  children.flatMap (fun ch =>
    match lookupFlag flags ch with
    | some f => [(tLoc, f, true), (uLoc, f, true)]
    | none => [])

/-- Environment for the C4 witness: one drop-and-replace marker on place 0,
which is the exact move path 0. -/
def env4 : Env :=
  { baseEnv with
      blocks := [⟨[], ⟨7, .dropAndReplace 0 9 1 (some 2)⟩, false⟩],
      revLookup := fun pl => if pl = 0 then .Exact 0 else .Parent none }

/-- Context for the C4 witness: move path 0 already carries flag local 5. -/
def ctxt4 : Ctxt := ⟨[(0, 5)], ⟨1, 3, 0, [], 0, [], [], none⟩, [], []⟩

/-- Result of the C4 witness run. -/
def wOut4 : Ctxt := (elaborateReplace env4 ctxt4 ⟨0, 0⟩ 0 9 1 (some 2)).getD default

/-- One pass step extends a context: the flag store is unchanged and every
assignment already in the patch is still in the patch. -/
def Extends (c c1 : Ctxt) : Prop :=
  c1.flags = c.flags ∧ ∀ x ∈ c.patch.assigns, x ∈ c1.patch.assigns

/-- Environment for the C5 witness: a single reachable drop marker on an
exact path that is both maybe-live and maybe-dead, so one flag is created. -/
def env5 : Env :=
  { baseEnv with
      blocks := [dropBlockU],
      revLookup := fun pl => if pl = 0 then .Exact 0 else .Parent none,
      inits := fun _ _ => true,
      uninits := fun _ _ => true }

/-- Result of running the full pipeline on `env5`. -/
def out5 : Ctxt := (elaborate env5).getD default

/-- The flag writes produced by applying the external effects of one
location: one write per effect whose path has a flag, with `Present` effects
filtered out when initializations are not allowed. -/
def effectWrites (env : Env) (flags : List (MovePath × Local)) (loc : Location)
    (allowInit : Bool) : List (Location × Local × Bool) :=
  (env.locFlagEffects loc).filterMap (fun pe =>
    if pe.2 = DropFlagState.Absent ∨ allowInit = true then
      (lookupFlag flags pe.1).map (fun f => (loc, f, pe.2.value))
    else none)

/-- The writes of the statement locations of a block (indices `0..n-1`),
with initializations allowed. -/
def stmtWrites (env : Env) (flags : List (MovePath × Local)) (bb n : Nat) :
    List (Location × Local × Bool) :=
  (List.range n).flatMap (fun i => effectWrites env flags ⟨bb, i⟩ true)

/-- The present-writes for the flagged members of a list of move paths. -/
def presentWrites (flags : List (MovePath × Local)) (loc : Location)
    (children : List MovePath) : List (Location × Local × Bool) :=
  children.filterMap (fun ch => (lookupFlag flags ch).map (fun f => (loc, f, true)))

/-- Block for the C6 counterexample: one statement, then a destruction
marker. -/
def cData6 : BlockData := ⟨[⟨0, .other 0⟩], ⟨0, .drop 0 1 none⟩, false⟩

/-- Environment for the C6 counterexample: the statement location 0 of block
0 carries an externally computed present-effect for path 0. -/
def cEnv6 : Env :=
  { baseEnv with
      blocks := [cData6],
      locFlagEffects := fun loc => if loc = ⟨0, 0⟩ then [(0, .Present)] else [] }

/-- Context for the C6 counterexample: path 0 carries flag local 9. -/
def cCtxt6 : Ctxt := ⟨[(0, 9)], ⟨1, 3, 0, [], 0, [], [], none⟩, [], []⟩

/-- Environment for the C7 witness: a single call terminator with a normal
target and no cleanup successor, whose destination is move path 0. -/
def env7 : Env :=
  { baseEnv with
      blocks := [⟨[], ⟨0, .call 0 (some 1) none⟩, false⟩],
      revLookup := fun pl => if pl = 0 then .Exact 0 else .Parent none }

/-- Context for the C7 witness: move path 0 carries flag local 7. -/
def ctxt7 : Ctxt := ⟨[(0, 7)], ⟨1, 3, 0, [], 0, [], [], none⟩, [], []⟩

/-- Block for the C8 counterexample and witness: a destruction marker on
place 5 whose lookup yields only a tracked ancestor. -/
def cData8 : BlockData := ⟨[], ⟨3, .drop 5 1 none⟩, false⟩

/-- Environment for the C8 counterexample: the ancestor is never maybe-dead
and the span is not a replace desugaring. -/
def cEnv8 : Env :=
  { baseEnv with
      blocks := [cData8],
      revLookup := fun _ => .Parent (some 0) }

/-- Context for the C8 tests. -/
def cCtxt8 : Ctxt := initCtxt cEnv8

/-- Environment for the C10 witness: the marker's base local is a
dereference temporary and the ancestor is maybe-dead, yet collection skips
it silently. -/
def cEnv10 : Env :=
  { baseEnv with
      blocks := [⟨[], ⟨4, .drop 2 1 none⟩, false⟩],
      revLookup := fun _ => .Parent (some 0),
      isDerefTemp := fun l => decide (l = 2),
      uninits := fun _ _ => true }

/-- Environment for the C9 counterexample and witness: one drop marker with
an unwind edge on an exact, never-initialized path, in a body where no block
is reachable. -/
def cEnv9 : Env :=
  { baseEnv with
      blocks := [dropBlockU],
      reachable := fun _ => false,
      revLookup := fun pl => if pl = 0 then .Exact 0 else .Parent none }

/-! Lemmas and claim theorems. -/

lemma deepFoldEq (env : Env) (loc : Location) :
    ∀ (l : List MovePath) (a b : Bool) (n : Nat),
      l.foldl (fun (x : (Bool × Bool) × Nat) child =>
          ((x.1.1 || env.inits loc child, x.1.2 || env.uninits loc child), x.2 + 1)) ((a, b), n)
        = ((a || l.any (fun x => env.inits loc x), b || l.any (fun x => env.uninits loc x)),
           n + l.length) := by
  intro l
  induction l with
  | nil => intro a b n; simp
  | cons x xs ih =>
      intro a b n
      simp only [List.foldl_cons, List.any_cons, List.length_cons, ih, Bool.or_assoc]
      have hn : n + 1 + xs.length = n + (xs.length + 1) := by omega
      rw [hn]

/-- Claim C1: the classifier is total (it is a function) and returns exactly
the drop style of the §4.2 decision table: in shallow mode over the
(maybe-live, maybe-dead) pair of the path itself with multi false, and in
deep mode over the unions of the pairs of the deep-drop subtree with multi
true exactly when the subtree size is not one. -/
theorem claim_C1 (env : Env) (loc : Location) (path : MovePath) :
    dropStyle env loc path .Shallow
        = classifyTable (env.inits loc path) (env.uninits loc path) false
      ∧ dropStyle env loc path .Deep
        = classifyTable (deepLive env loc path) (deepDead env loc path)
            (deepMulti env path) := by
  constructor
  · cases h1 : env.inits loc path <;> cases h2 : env.uninits loc path <;>
      simp [dropStyle, maybeLiveDead, classifyTable, h1, h2]
  · have hf := deepFoldEq env loc (env.dropChildren path) false false 0
    simp only [dropStyle, maybeLiveDead]
    simp only [hf, Bool.false_or, Nat.zero_add]
    by_cases h3 : (env.dropChildren path).length = 1 <;>
      cases h1 : (env.dropChildren path).any (fun x => env.inits loc x) <;>
        cases h2 : (env.dropChildren path).any (fun x => env.uninits loc x) <;>
          simp [classifyTable, deepLive, deepDead, deepMulti, h1, h2, h3]

lemma foldl_or_eq_any (f : MovePath → Bool) :
    ∀ (l : List MovePath) (a : Bool), l.foldl (fun acc x => acc || f x) a = (a || l.any f) := by
  intro l
  induction l with
  | nil => intro a; simp
  | cons x xs ih => intro a; simp only [List.foldl_cons, List.any_cons, ih, Bool.or_assoc]

lemma anyChildInit_eq_any (env : Env) (loc : Location) (path : MovePath) :
    anyChildInit env loc path = (env.dropChildren path).any (fun x => env.inits loc x) := by
  have h := foldl_or_eq_any (fun x => env.inits loc x) (env.dropChildren path) false
  simpa only [anyChildInit, Bool.false_or] using h

lemma mem_deadUnwindsAux (env : Env) :
    ∀ (l : List BlockData) (i bb : Nat),
      bb ∈ deadUnwindsAux env i l
        ↔ ∃ j d, l.get? j = some d ∧ bb = i + j ∧ isDeadUnwind env bb d = true := by
  intro l
  induction l with
  | nil => intro i bb; simp [deadUnwindsAux]
  | cons d rest ih =>
      intro i bb
      simp only [deadUnwindsAux, List.mem_append]
      constructor
      · rintro (h | h)
        · by_cases hd : isDeadUnwind env i d
          · simp [hd] at h
            exact ⟨0, d, by simp, by omega, by simpa [h] using hd⟩
          · simp [hd] at h
        · obtain ⟨j, d1, hj, hbb, hdead⟩ := (ih (i + 1) bb).mp h
          exact ⟨j + 1, d1, by simpa using hj, by omega, hdead⟩
      · rintro ⟨j, d1, hj, hbb, hdead⟩
        cases j with
        | zero =>
            left
            simp at hj
            subst hj
            have : bb = i := by omega
            subst this
            simp [hdead]
        | succ j =>
            right
            refine (ih (i + 1) bb).mpr ⟨j, d1, by simpa using hj, by omega, hdead⟩

lemma get_removeDeadUnwindsAux (dead : List Nat) :
    ∀ (l : List BlockData) (i j : Nat),
      (removeDeadUnwindsAux dead i l).get? j
        = (l.get? j).map (fun d =>
            if (i + j) ∈ dead then
              { d with terminator := { d.terminator with kind := clearUnwind d.terminator.kind } }
            else d) := by
  intro l
  induction l with
  | nil => intro i j; simp [removeDeadUnwindsAux]
  | cons d rest ih =>
      intro i j
      cases j with
      | zero => simp [removeDeadUnwindsAux]
      | succ j =>
          simp only [removeDeadUnwindsAux, List.get?_cons_succ, ih (i + 1) j]
          have : i + 1 + j = i + (j + 1) := by omega
          rw [this]

lemma removeDeadUnwinds_get (env : Env) (bb : Nat) (data : BlockData)
    (hb : env.blocks.get? bb = some data) :
    (removeDeadUnwinds env).get? bb
      = some (if isDeadUnwind env bb data then
          { data with terminator :=
              { data.terminator with kind := clearUnwind data.terminator.kind } }
        else data) := by
  have hmem : bb ∈ deadUnwindsAux env 0 env.blocks ↔ isDeadUnwind env bb data = true := by
    rw [mem_deadUnwindsAux]
    constructor
    · rintro ⟨j, d, hj, hbb, hdead⟩
      have : j = bb := by omega
      subst this
      rw [hb] at hj
      obtain rfl : data = d := by injection hj
      exact hdead
    · intro h
      exact ⟨bb, data, hb, by omega, h⟩
  simp only [removeDeadUnwinds]
  by_cases he : (deadUnwindsAux env 0 env.blocks).isEmpty = true
  · have hnil : deadUnwindsAux env 0 env.blocks = [] := by
      cases hl : deadUnwindsAux env 0 env.blocks
      · rfl
      · rw [hl] at he; simp at he
    have hnd : isDeadUnwind env bb data = false := by
      cases h : isDeadUnwind env bb data
      · rfl
      · have := hmem.mpr h
        rw [hnil] at this
        simp at this
    rw [if_pos he, hnd]
    simpa using hb
  · rw [if_neg he, get_removeDeadUnwindsAux, hb]
    cases h : isDeadUnwind env bb data
    · have hnm : ¬ bb ∈ deadUnwindsAux env 0 env.blocks := by
        intro hm
        have ht := hmem.mp hm
        rw [h] at ht
        exact Bool.noConfusion ht
      simp [hnm]
    · have hm : bb ∈ deadUnwindsAux env 0 env.blocks := hmem.mpr h
      simp [hm]

lemma blockData_eta (d : BlockData) (k : TerminatorKind) (h : d.terminator.kind = k) :
    ({ d with terminator := { d.terminator with kind := k } } : BlockData) = d := by
  rw [← h]

/-- Claim C2: for every destruction or drop-and-replace marker with an unwind
successor whose (dereferenced) place resolves to an exact move path, the
dead-unwind pruner sets the unwind edge to none if and only if no move path
in the deep-drop subtree is maybe-initialized just before the terminator;
otherwise the block is left unchanged. -/
theorem claim_C2 (env : Env) (bb : Nat) (data : BlockData) (pl : Place) (t u : Nat)
    (path : MovePath) (hb : env.blocks.get? bb = some data)
    (hx : env.revLookup ((env.derefer pl).getD pl) = .Exact path) :
    (data.terminator.kind = .drop pl t (some u) →
      (removeDeadUnwinds env).get? bb
        = some { data with terminator := { data.terminator with
            kind := .drop pl t
              (if (env.dropChildren path).any (fun x => env.inits (terminatorLoc bb data) x)
               then some u else none) } })
  ∧ (∀ v, data.terminator.kind = .dropAndReplace pl v t (some u) →
      (removeDeadUnwinds env).get? bb
        = some { data with terminator := { data.terminator with
            kind := .dropAndReplace pl v t
              (if (env.dropChildren path).any (fun x => env.inits (terminatorLoc bb data) x)
               then some u else none) } }) := by
  constructor
  · intro hk
    have hdead : isDeadUnwind env bb data
        = !((env.dropChildren path).any (fun x => env.inits (terminatorLoc bb data) x)) := by
      simp [isDeadUnwind, unwindPlace, hk, hx, anyChildInit_eq_any]
    rw [removeDeadUnwinds_get env bb data hb, hdead]
    cases h : (env.dropChildren path).any (fun x => env.inits (terminatorLoc bb data) x)
    · simp [clearUnwind, hk]
    · simp [hk]
      exact (blockData_eta data _ hk).symm
  · intro v hk
    have hdead : isDeadUnwind env bb data
        = !((env.dropChildren path).any (fun x => env.inits (terminatorLoc bb data) x)) := by
      simp [isDeadUnwind, unwindPlace, hk, hx, anyChildInit_eq_any]
    rw [removeDeadUnwinds_get env bb data hb, hdead]
    cases h : (env.dropChildren path).any (fun x => env.inits (terminatorLoc bb data) x)
    · simp [clearUnwind, hk]
    · simp [hk]
      exact (blockData_eta data _ hk).symm

theorem claim_C2_witness :
    (removeDeadUnwinds envC2w).get? 0 = some ⟨[], ⟨0, .drop 0 1 none⟩, false⟩ := by
  have h := (claim_C2 envC2w 0 dropBlockU 0 1 2 0 rfl rfl).1 rfl
  simpa [envC2w, dropBlockU, baseEnv] using h

lemma lookupFlag_append (l1 l2 : List (MovePath × Local)) (p : MovePath) :
    lookupFlag (l1 ++ l2) p
      = (match lookupFlag l1 p with
         | some v => some v
         | none => lookupFlag l2 p) := by
  induction l1 with
  | nil => simp [lookupFlag]
  | cons kv rest ih =>
      by_cases h : kv.1 = p
      · simp [lookupFlag, h]
      · simp [lookupFlag, h, ih]

lemma createDropFlag_hasFlag (c : Ctxt) (x p : MovePath) :
    (lookupFlag (createDropFlag c x).flags p).isSome = true
      ↔ (lookupFlag c.flags p).isSome = true ∨ p = x := by
  unfold createDropFlag
  cases hx : lookupFlag c.flags x
  · simp only [lookupFlag_append]
    cases hp : lookupFlag c.flags p
    · by_cases hpx : p = x
      · subst hpx
        simp [lookupFlag, hp]
      · have hxp : ¬ x = p := fun h => hpx h.symm
        simp [lookupFlag, hpx, hxp, hp]
    · simp [hp]
  · constructor
    · intro h
      exact Or.inl h
    · rintro (h | rfl)
      · exact h
      · simp [hx]

lemma collectFold_hasFlag (env : Env) (loc : Location) :
    ∀ (l : List MovePath) (c : Ctxt) (p : MovePath),
      (lookupFlag ((l.foldl (fun c child =>
          if (maybeLiveDead env loc child).1 && (maybeLiveDead env loc child).2 then
            createDropFlag c child
          else c) c).flags) p).isSome = true
        ↔ (lookupFlag c.flags p).isSome = true ∨
            (p ∈ l ∧ env.inits loc p = true ∧ env.uninits loc p = true) := by
  intro l
  induction l with
  | nil => intro c p; simp
  | cons x xs ih =>
      intro c p
      simp only [List.foldl_cons, ih, List.mem_cons]
      by_cases hc : (maybeLiveDead env loc x).1 && (maybeLiveDead env loc x).2
      · rw [if_pos hc]
        rw [createDropFlag_hasFlag]
        simp only [maybeLiveDead, Bool.and_eq_true] at hc
        constructor
        · rintro ((h | rfl) | h)
          · exact Or.inl h
          · exact Or.inr ⟨Or.inl rfl, hc.1, hc.2⟩
          · exact Or.inr ⟨Or.inr h.1, h.2⟩
        · rintro (h | ⟨(rfl | hm), hi, hu⟩)
          · exact Or.inl (Or.inl h)
          · exact Or.inl (Or.inr rfl)
          · exact Or.inr ⟨hm, hi, hu⟩
      · rw [if_neg hc]
        simp only [maybeLiveDead, Bool.and_eq_true] at hc
        constructor
        · rintro (h | h)
          · exact Or.inl h
          · exact Or.inr ⟨Or.inr h.1, h.2⟩
        · rintro (h | ⟨(rfl | hm), hi, hu⟩)
          · exact Or.inl h
          · exact absurd ⟨hi, hu⟩ hc
          · exact Or.inr ⟨hm, hi, hu⟩

lemma collectBlock_hasFlag (env : Env) (c : Ctxt) (bb : Nat) (data : BlockData) (p : MovePath) :
    (lookupFlag (collectBlock env c bb data).flags p).isSome = true
      ↔ (lookupFlag c.flags p).isSome = true ∨ CollectContrib env bb data p := by
  unfold collectBlock
  cases hr : env.reachable bb
  · simp [CollectContrib, hr]
  · rw [if_pos rfl]
    cases hm : markerPlace data.terminator.kind with
    | none => simp [CollectContrib, hm]
    | some pl =>
        dsimp only
        cases hl : env.revLookup ((env.derefer pl).getD pl) with
        | Exact path =>
            dsimp only
            rw [collectFold_hasFlag]
            simp [CollectContrib, hm, hl, hr]
        | Parent par =>
            have hcon : ¬ CollectContrib env bb data p := by
              rintro ⟨-, pl1, path1, hm1, hl1, -⟩
              rw [hm] at hm1
              obtain rfl : pl = pl1 := by injection hm1
              rw [hl] at hl1
              cases hl1
            cases par with
            | none => dsimp only; simp [hcon]
            | some a =>
                dsimp only
                by_cases hd : env.isDerefTemp (env.placeLocal ((env.derefer pl).getD pl)) = true
                · simp [hd, hcon]
                · by_cases hu : (maybeLiveDead env (terminatorLoc bb data) a).2 = true
                  · simp [hd, hu, hcon]
                  · simp [hd, hu, hcon]

lemma collectAux_hasFlag (env : Env) :
    ∀ (l : List BlockData) (c : Ctxt) (i : Nat) (p : MovePath),
      (lookupFlag (collectDropFlagsAux env c i l).flags p).isSome = true
        ↔ (lookupFlag c.flags p).isSome = true ∨
            ∃ j d, l.get? j = some d ∧ CollectContrib env (i + j) d p := by
  intro l
  induction l with
  | nil => intro c i p; simp [collectDropFlagsAux]
  | cons d rest ih =>
      intro c i p
      simp only [collectDropFlagsAux]
      rw [ih, collectBlock_hasFlag]
      constructor
      · rintro ((h | h) | ⟨j, d1, hj, hc⟩)
        · exact Or.inl h
        · exact Or.inr ⟨0, d, by simp, by simpa using h⟩
        · exact Or.inr ⟨j + 1, d1, by simpa using hj, by
            have : i + 1 + j = i + (j + 1) := by omega
            rwa [this] at hc⟩
      · rintro (h | ⟨j, d1, hj, hc⟩)
        · exact Or.inl (Or.inl h)
        · cases j with
          | zero =>
              simp only [List.get?_cons_zero, Option.some_inj] at hj
              subst hj
              exact Or.inl (Or.inr (by simpa using hc))
          | succ j =>
              refine Or.inr ⟨j, d1, by simpa using hj, ?_⟩
              have : i + (j + 1) = i + 1 + j := by omega
              rwa [this] at hc

/-- Claim C3: the collection phase creates a drop flag for a move path iff
the path lies in the deep-drop subtree of the exact move path of some
reachable destruction or drop-and-replace marker and is both maybe-live and
maybe-dead just before that marker. -/
theorem claim_C3 (env : Env) (p : MovePath) :
    (lookupFlag (collectDropFlags env (initCtxt env)).flags p).isSome = true
      ↔ ∃ bb data, env.blocks.get? bb = some data ∧ CollectContrib env bb data p := by
  unfold collectDropFlags
  rw [collectAux_hasFlag]
  simp [initCtxt, lookupFlag]

lemma setDropFlag_eq (c : Ctxt) (loc : Location) (path : MovePath) (val : DropFlagState) :
    setDropFlag c loc path val
      = { c with patch := { c.patch with assigns := c.patch.assigns ++
            (match lookupFlag c.flags path with
             | some f => [(loc, f, val.value)]
             | none => []) } } := by
  unfold setDropFlag MirPatch.addAssign
  cases lookupFlag c.flags path
  · simp
  · simp

lemma foldl_setTwo (tLoc uLoc : Location) :
    ∀ (l : List MovePath) (c : Ctxt),
      l.foldl (fun s child =>
          setDropFlag (setDropFlag s tLoc child .Present) uLoc child .Present) c
        = { c with patch := { c.patch with assigns :=
            c.patch.assigns ++ replaceWrites c.flags tLoc uLoc l } } := by
  intro l
  induction l with
  | nil => intro c; simp [replaceWrites]
  | cons x xs ih =>
      intro c
      simp only [List.foldl_cons]
      rw [ih]
      cases hx : lookupFlag c.flags x <;>
        simp [setDropFlag_eq, hx, replaceWrites, DropFlagState.value, List.append_assoc]

/-- Claim C4: a drop-and-replace on a place with an exact move path (in a
non-cleanup block, with both continuations present) synthesizes exactly two
new blocks — the cleanup one jumping to the unwind successor and the normal
one jumping to the target, each holding the replacement assignment — hands
the drop to the drop-generation service with exactly these two blocks as its
continuations, and afterwards writes every subtree flag present at statement
index 0 of both new blocks. -/
theorem claim_C4 (env : Env) (c : Ctxt) (loc : Location) (place : Place) (value : Operand)
    (target u : Nat) (path : MovePath) (data : BlockData)
    (hb : env.blocks.get? loc.block = some data) (hcl : data.isCleanup = false)
    (hx : env.revLookup place = .Exact path) :
    elaborateReplace env c loc place value target (some u)
      = (let aStmt : Statement := ⟨data.terminator.span, .assign place value⟩
         let uId := c.patch.bodyBlockCount + c.patch.newBlocks.length
         let tId := uId + 1
         let call : DropSvcCall := ⟨data.terminator.span, place, path, tId, .To uId, loc.block⟩
         some { flags := c.flags,
                patch := { c.patch with
                  newBlocks := c.patch.newBlocks
                    ++ [⟨[aStmt], ⟨data.terminator.span, .goto u⟩, true⟩,
                        ⟨[aStmt], ⟨data.terminator.span, .goto target⟩, false⟩]
                    ++ env.svcNewBlocks call,
                  assigns := c.patch.assigns ++ env.svcAssigns call
                    ++ replaceWrites c.flags ⟨tId, 0⟩ ⟨uId, 0⟩ (env.allChildren path),
                  termPatches := c.patch.termPatches ++ env.svcTermPatches call,
                  newLocals := c.patch.newLocals + env.svcNewLocals call },
                diags := c.diags,
                svcCalls := c.svcCalls ++ [call] }) := by
  unfold elaborateReplace
  dsimp only
  rw [hb]
  dsimp only
  simp only [hcl, Bool.false_eq_true, if_false]
  rw [hx]
  dsimp only [MirPatch.newBlock]
  rw [foldl_setTwo]
  simp [applySvc, List.append_assoc, List.length_append, Nat.add_assoc]

theorem claim_C4_witness :
    elaborateReplace env4 ctxt4 ⟨0, 0⟩ 0 9 1 (some 2) = some wOut4 := by
  have h := claim_C4 env4 ctxt4 ⟨0, 0⟩ 0 9 1 2 0
    ⟨[], ⟨7, .dropAndReplace 0 9 1 (some 2)⟩, false⟩ rfl rfl rfl
  rw [h]
  rfl

lemma extends_refl (c : Ctxt) : Extends c c :=
  ⟨rfl, fun _ hx => hx⟩

lemma extends_trans {c c1 c2 : Ctxt} (h1 : Extends c c1) (h2 : Extends c1 c2) : Extends c c2 :=
  ⟨h2.1.trans h1.1, fun x hx => h2.2 x (h1.2 x hx)⟩

lemma newBlock_assigns (p : MirPatch) (d : BlockData) : (p.newBlock d).2.assigns = p.assigns :=
  rfl

lemma applySvc_assigns (env : Env) (call : DropSvcCall) (p : MirPatch) :
    (applySvc env call p).assigns = p.assigns ++ env.svcAssigns call :=
  rfl

lemma patchTerminator_assigns (p : MirPatch) (bb : Nat) (k : TerminatorKind) :
    (p.patchTerminator bb k).assigns = p.assigns :=
  rfl

lemma resumeBlock_assigns (p : MirPatch) : (p.resumeBlock).2.assigns = p.assigns := by
  unfold MirPatch.resumeBlock MirPatch.newBlock
  cases p.resumeCache <;> rfl

lemma resumeBlock_termPatches (p : MirPatch) : (p.resumeBlock).2.termPatches = p.termPatches := by
  unfold MirPatch.resumeBlock MirPatch.newBlock
  cases p.resumeCache <;> rfl

lemma setDropFlag_extends (c : Ctxt) (loc : Location) (path : MovePath) (val : DropFlagState) :
    Extends c (setDropFlag c loc path val) := by
  rw [setDropFlag_eq]
  exact ⟨rfl, fun x hx => List.mem_append_left _ hx⟩

lemma foldl_extends {α : Type} (f : Ctxt → α → Ctxt) (hf : ∀ s a, Extends s (f s a)) :
    ∀ (l : List α) (c : Ctxt), Extends c (l.foldl f c) := by
  intro l
  induction l with
  | nil => intro c; exact extends_refl _
  | cons a as ih => intro c; exact extends_trans (hf c a) (ih (f c a))

lemma foldlM_extends {α : Type} (step : Ctxt → α → Option Ctxt)
    (hstep : ∀ s a s1, step s a = some s1 → Extends s s1) :
    ∀ (l : List α) (c out : Ctxt), l.foldlM step c = some out → Extends c out := by
  intro l
  induction l with
  | nil =>
      intro c out h
      simp only [List.foldlM_nil] at h
      obtain rfl := Option.some_inj.mp h
      exact extends_refl _
  | cons a as ih =>
      intro c out h
      simp only [List.foldlM_cons] at h
      cases h1 : step c a with
      | none => rw [h1] at h; cases h
      | some s1 =>
          rw [h1] at h
          exact extends_trans (hstep c a s1 h1) (ih s1 out h)

lemma elaborateReplace_extends (env : Env) (c c1 : Ctxt) (loc : Location) (place : Place)
    (value : Operand) (target : Nat) (unwind : Option Nat)
    (h : elaborateReplace env c loc place value target unwind = some c1) :
    Extends c c1 := by
  unfold elaborateReplace at h
  dsimp only at h
  cases hgb : env.blocks.get? loc.block with
  | none => rw [hgb] at h; cases h
  | some data =>
      rw [hgb] at h
      dsimp only at h
      by_cases hcl : data.isCleanup = true
      · rw [if_pos hcl] at h; cases h
      · rw [if_neg hcl] at h
        have hr0 : (match unwind with
            | some u => (u, c.patch)
            | none => c.patch.resumeBlock).2.assigns = c.patch.assigns := by
          cases unwind
          · exact resumeBlock_assigns c.patch
          · rfl
        cases hlk : env.revLookup place with
        | Exact path =>
            rw [hlk] at h
            dsimp only at h
            rw [foldl_setTwo] at h
            obtain rfl := Option.some_inj.mp h.symm
            refine ⟨rfl, fun x hx => ?_⟩
            dsimp only
            rw [applySvc_assigns, newBlock_assigns, newBlock_assigns, hr0]
            exact List.mem_append_left _ (List.mem_append_left _ hx)
        | Parent par =>
            rw [hlk] at h
            dsimp only at h
            obtain rfl := Option.some_inj.mp h.symm
            refine ⟨rfl, fun x hx => ?_⟩
            dsimp only
            rw [patchTerminator_assigns, newBlock_assigns, newBlock_assigns, hr0]
            exact hx

lemma elaborateDropBlock_extends (env : Env) (c c1 : Ctxt) (bb : Nat) (data : BlockData)
    (h : elaborateDropBlock env c bb data = some c1) : Extends c c1 := by
  unfold elaborateDropBlock at h
  by_cases hr : env.reachable bb = true
  · rw [if_pos hr] at h
    dsimp only at h
    have hmid : Extends c { c with patch := (c.patch.resumeBlock).2 } :=
      ⟨rfl, fun x hx => by rw [resumeBlock_assigns]; exact hx⟩
    cases hk : data.terminator.kind with
    | drop pl target unwind =>
        rw [hk] at h
        dsimp only at h
        cases hlk : env.revLookup ((env.derefer pl).getD pl) with
        | Exact path =>
            rw [hlk] at h
            dsimp only at h
            obtain rfl := Option.some_inj.mp h.symm
            refine ⟨rfl, fun x hx => ?_⟩
            dsimp only
            rw [applySvc_assigns, resumeBlock_assigns]
            exact List.mem_append_left _ hx
        | Parent par =>
            rw [hlk] at h
            dsimp only at h
            by_cases hcl : data.isCleanup = true
            · rw [if_pos hcl] at h; cases h
            · rw [if_neg hcl] at h
              obtain rfl := Option.some_inj.mp h.symm
              by_cases hds : env.replaceDesugar data.terminator.span = true
              · rw [if_pos hds]
                exact hmid
              · rw [if_neg hds]
                exact ⟨rfl, fun x hx => by rw [resumeBlock_assigns]; exact hx⟩
    | dropAndReplace pl value target unwind =>
        rw [hk] at h
        dsimp only at h
        by_cases hcl : data.isCleanup = true
        · rw [if_pos hcl] at h; cases h
        · rw [if_neg hcl] at h
          exact extends_trans hmid (elaborateReplace_extends env _ c1 _ _ _ _ _ h)
    | call dest tgt cu =>
        rw [hk] at h
        obtain rfl := Option.some_inj.mp h.symm
        exact hmid
    | goto tgt =>
        rw [hk] at h
        obtain rfl := Option.some_inj.mp h.symm
        exact hmid
    | resume =>
        rw [hk] at h
        obtain rfl := Option.some_inj.mp h.symm
        exact hmid
    | other tag =>
        rw [hk] at h
        obtain rfl := Option.some_inj.mp h.symm
        exact hmid
  · rw [if_neg hr] at h
    obtain rfl := Option.some_inj.mp h.symm
    exact extends_refl _

lemma elaborateDropsAux_extends (env : Env) :
    ∀ (l : List BlockData) (c out : Ctxt) (i : Nat),
      elaborateDropsAux env c i l = some out → Extends c out := by
  intro l
  induction l with
  | nil =>
      intro c out i h
      obtain rfl := Option.some_inj.mp h
      exact extends_refl _
  | cons d rest ih =>
      intro c out i h
      simp only [elaborateDropsAux] at h
      cases h1 : elaborateDropBlock env c i d with
      | none => rw [h1] at h; cases h
      | some cm =>
          rw [h1] at h
          exact extends_trans (elaborateDropBlock_extends env c cm i d h1) (ih cm out (i + 1) h)

lemma foldl_addFalse :
    ∀ (l : List (MovePath × Local)) (c : Ctxt),
      l.foldl (fun s kv => { s with patch := s.patch.addAssign ⟨0, 0⟩ kv.2 false }) c
        = { c with patch := { c.patch with
            assigns := c.patch.assigns
              ++ l.map (fun kv => (⟨0, 0⟩, kv.2, false)) } } := by
  intro l
  induction l with
  | nil => intro c; simp
  | cons kv rest ih =>
      intro c
      simp only [List.foldl_cons, List.map_cons]
      rw [ih]
      simp [MirPatch.addAssign, List.append_assoc]

lemma dropFlagsOnInit_eq (c : Ctxt) :
    dropFlagsOnInit c
      = { c with patch := { c.patch with
          assigns := c.patch.assigns
            ++ c.flags.map (fun kv => (⟨0, 0⟩, kv.2, false)) } } := by
  unfold dropFlagsOnInit
  exact foldl_addFalse c.flags c

lemma emitLocEffects_extends (env : Env) (c : Ctxt) (loc : Location) (allowInit : Bool) :
    Extends c (emitLocEffects env c loc allowInit) := by
  unfold emitLocEffects
  refine foldl_extends _ (fun s pe => ?_) _ c
  by_cases hc : pe.2 = DropFlagState.Absent ∨ allowInit = true
  · rw [if_pos hc]
    exact setDropFlag_extends s loc pe.1 pe.2
  · rw [if_neg hc]
    exact extends_refl s

lemma locsStep_extends (env : Env) (bb : Nat) (data : BlockData) (c c1 : Ctxt) (i : Nat)
    (h : locsStep env bb data c i = some c1) : Extends c c1 := by
  unfold locsStep at h
  by_cases hi : i = data.statements.length
  · rw [if_pos hi] at h
    cases hk : data.terminator.kind with
    | drop pl target unwind =>
        rw [hk] at h
        dsimp only at h
        obtain rfl := Option.some_inj.mp h.symm
        exact extends_refl _
    | dropAndReplace pl value target unwind =>
        rw [hk] at h
        dsimp only at h
        by_cases hp : c.patch.isPatched bb = true
        · rw [if_pos hp] at h
          obtain rfl := Option.some_inj.mp h.symm
          exact emitLocEffects_extends env _ _ _
        · rw [if_neg hp] at h; cases h
    | resume =>
        rw [hk] at h
        dsimp only at h
        obtain rfl := Option.some_inj.mp h.symm
        exact emitLocEffects_extends env _ _ _
    | call dest tgt cu =>
        rw [hk] at h
        dsimp only at h
        by_cases hp : c.patch.isPatched bb = true
        · rw [if_pos hp] at h; cases h
        · rw [if_neg hp] at h
          obtain rfl := Option.some_inj.mp h.symm
          exact emitLocEffects_extends env _ _ _
    | goto tgt =>
        rw [hk] at h
        dsimp only at h
        by_cases hp : c.patch.isPatched bb = true
        · rw [if_pos hp] at h; cases h
        · rw [if_neg hp] at h
          obtain rfl := Option.some_inj.mp h.symm
          exact emitLocEffects_extends env _ _ _
    | other tag =>
        rw [hk] at h
        dsimp only at h
        by_cases hp : c.patch.isPatched bb = true
        · rw [if_pos hp] at h; cases h
        · rw [if_neg hp] at h
          obtain rfl := Option.some_inj.mp h.symm
          exact emitLocEffects_extends env _ _ _
  · rw [if_neg hi] at h
    obtain rfl := Option.some_inj.mp h.symm
    exact emitLocEffects_extends env _ _ _

lemma locsBlock_extends (env : Env) (c c1 : Ctxt) (bb : Nat) (data : BlockData)
    (h : locsBlock env c bb data = some c1) : Extends c c1 := by
  unfold locsBlock at h
  by_cases hr : env.reachable bb = true
  · rw [if_pos hr] at h
    cases hm : (List.range (data.statements.length + 1)).foldlM (locsStep env bb data) c with
    | none => rw [hm] at h; cases h
    | some cm =>
        rw [hm] at h
        have hext : Extends c cm :=
          foldlM_extends _ (fun s a s1 => locsStep_extends env bb data s s1 a) _ c cm hm
        cases hk : data.terminator.kind with
        | call dest tgt cu =>
            rw [hk] at h
            cases tgt with
            | none =>
                dsimp only at h
                obtain rfl := Option.some_inj.mp h.symm
                exact hext
            | some t =>
                cases cu with
                | none =>
                    dsimp only at h
                    by_cases hp : cm.patch.isPatched bb = true
                    · rw [if_pos hp] at h; cases h
                    · rw [if_neg hp] at h
                      obtain rfl := Option.some_inj.mp h.symm
                      refine extends_trans hext ?_
                      exact foldl_extends _ (fun s child => setDropFlag_extends s _ child _) _ cm
                | some cub =>
                    dsimp only at h
                    obtain rfl := Option.some_inj.mp h.symm
                    exact hext
        | drop pl target unwind =>
            rw [hk] at h
            dsimp only at h
            obtain rfl := Option.some_inj.mp h.symm
            exact hext
        | dropAndReplace pl value target unwind =>
            rw [hk] at h
            dsimp only at h
            obtain rfl := Option.some_inj.mp h.symm
            exact hext
        | goto tgt =>
            rw [hk] at h
            dsimp only at h
            obtain rfl := Option.some_inj.mp h.symm
            exact hext
        | resume =>
            rw [hk] at h
            dsimp only at h
            obtain rfl := Option.some_inj.mp h.symm
            exact hext
        | other tag =>
            rw [hk] at h
            dsimp only at h
            obtain rfl := Option.some_inj.mp h.symm
            exact hext
  · rw [if_neg hr] at h
    obtain rfl := Option.some_inj.mp h.symm
    exact extends_refl _

lemma locsAux_extends (env : Env) :
    ∀ (l : List BlockData) (c out : Ctxt) (i : Nat),
      locsAux env c i l = some out → Extends c out := by
  intro l
  induction l with
  | nil =>
      intro c out i h
      obtain rfl := Option.some_inj.mp h
      exact extends_refl _
  | cons d rest ih =>
      intro c out i h
      simp only [locsAux] at h
      cases h1 : locsBlock env c i d with
      | none => rw [h1] at h; cases h
      | some cm =>
          rw [h1] at h
          exact extends_trans (locsBlock_extends env c cm i d h1) (ih cm out (i + 1) h)

lemma fnRetsBlock_extends (env : Env) (c c1 : Ctxt) (bb : Nat) (data : BlockData)
    (h : fnRetsBlock env c bb data = some c1) : Extends c c1 := by
  unfold fnRetsBlock at h
  by_cases hr : env.reachable bb = true
  · rw [if_pos hr] at h
    cases hk : data.terminator.kind with
    | call dest tgt cu =>
        rw [hk] at h
        cases tgt with
        | none =>
            dsimp only at h
            obtain rfl := Option.some_inj.mp h.symm
            exact extends_refl _
        | some t =>
            cases cu with
            | none =>
                dsimp only at h
                obtain rfl := Option.some_inj.mp h.symm
                exact extends_refl _
            | some cub =>
                dsimp only at h
                by_cases hp : c.patch.isPatched bb = true
                · rw [if_pos hp] at h; cases h
                · rw [if_neg hp] at h
                  obtain rfl := Option.some_inj.mp h.symm
                  exact foldl_extends _ (fun s child => setDropFlag_extends s _ child _) _ c
    | drop pl target unwind =>
        rw [hk] at h
        dsimp only at h
        obtain rfl := Option.some_inj.mp h.symm
        exact extends_refl _
    | dropAndReplace pl value target unwind =>
        rw [hk] at h
        dsimp only at h
        obtain rfl := Option.some_inj.mp h.symm
        exact extends_refl _
    | goto tgt =>
        rw [hk] at h
        dsimp only at h
        obtain rfl := Option.some_inj.mp h.symm
        exact extends_refl _
    | resume =>
        rw [hk] at h
        dsimp only at h
        obtain rfl := Option.some_inj.mp h.symm
        exact extends_refl _
    | other tag =>
        rw [hk] at h
        dsimp only at h
        obtain rfl := Option.some_inj.mp h.symm
        exact extends_refl _
  · rw [if_neg hr] at h
    obtain rfl := Option.some_inj.mp h.symm
    exact extends_refl _

lemma fnRetsAux_extends (env : Env) :
    ∀ (l : List BlockData) (c out : Ctxt) (i : Nat),
      fnRetsAux env c i l = some out → Extends c out := by
  intro l
  induction l with
  | nil =>
      intro c out i h
      obtain rfl := Option.some_inj.mp h
      exact extends_refl _
  | cons d rest ih =>
      intro c out i h
      simp only [fnRetsAux] at h
      cases h1 : fnRetsBlock env c i d with
      | none => rw [h1] at h; cases h
      | some cm =>
          rw [h1] at h
          exact extends_trans (fnRetsBlock_extends env c cm i d h1) (ih cm out (i + 1) h)

lemma dropFlagsForArgs_extends (env : Env) (c : Ctxt) :
    Extends c (dropFlagsForArgs env c) := by
  unfold dropFlagsForArgs
  exact foldl_extends _
    (fun (s : Ctxt) (pe : MovePath × DropFlagState) => setDropFlag_extends s _ pe.1 pe.2) _ c

/-- Claim C5: every drop flag created by the pass is assigned the constant
false at the entry location (block 0, statement index 0) in the final
patch. -/
theorem claim_C5 (env : Env) (out : Ctxt) (h : elaborate env = some out) :
    ∀ kv ∈ out.flags, ((⟨0, 0⟩ : Location), kv.2, false) ∈ out.patch.assigns := by
  unfold elaborate at h
  dsimp only at h
  cases h2 : elaborateDrops env (collectDropFlags env (initCtxt env)) with
  | none => rw [h2] at h; cases h
  | some c2 =>
      rw [h2] at h
      dsimp only at h
      cases h4 : dropFlagsForFnRets env (dropFlagsOnInit c2) with
      | none => rw [h4] at h; cases h
      | some c4 =>
          rw [h4] at h
          dsimp only at h
          have e45 : Extends c4 (dropFlagsForArgs env c4) := dropFlagsForArgs_extends env c4
          have e5o : Extends (dropFlagsForArgs env c4) out :=
            locsAux_extends env env.blocks (dropFlagsForArgs env c4) out 0 h
          have e34 : Extends (dropFlagsOnInit c2) c4 :=
            fnRetsAux_extends env env.blocks (dropFlagsOnInit c2) c4 0 h4
          have e3o : Extends (dropFlagsOnInit c2) out :=
            extends_trans e34 (extends_trans e45 e5o)
          obtain ⟨hfl3, hmem3⟩ := e3o
          have hfini : (dropFlagsOnInit c2).flags = c2.flags := by
            rw [dropFlagsOnInit_eq]
          intro kv hkv
          have hkv2 : kv ∈ c2.flags := by
            rw [hfl3, hfini] at hkv
            exact hkv
          refine hmem3 _ ?_
          rw [dropFlagsOnInit_eq]
          dsimp only
          exact List.mem_append_right _ (List.mem_map.mpr ⟨kv, hkv2, rfl⟩)

theorem claim_C5_witness :
    (0, 3) ∈ out5.flags ∧ ((⟨0, 0⟩ : Location), 3, false) ∈ out5.patch.assigns :=
  ⟨by decide, claim_C5 env5 out5 (by rfl) (0, 3) (by decide)⟩

lemma setDropFlag_eq_none {c : Ctxt} {path : MovePath} (loc : Location) (val : DropFlagState)
    (h : lookupFlag c.flags path = none) : setDropFlag c loc path val = c := by
  unfold setDropFlag
  rw [h]

lemma setDropFlag_eq_some {c : Ctxt} {path : MovePath} {f : Local} (loc : Location)
    (val : DropFlagState) (h : lookupFlag c.flags path = some f) :
    setDropFlag c loc path val
      = { c with patch := { c.patch with
          assigns := c.patch.assigns ++ [(loc, f, val.value)] } } := by
  unfold setDropFlag
  rw [h]
  rfl

lemma foldl_emit (loc : Location) (allowInit : Bool) :
    ∀ (l : List (MovePath × DropFlagState)) (c : Ctxt),
      l.foldl (fun s pe =>
          if pe.2 = DropFlagState.Absent ∨ allowInit = true then setDropFlag s loc pe.1 pe.2
          else s) c
        = { c with patch := { c.patch with
            assigns := c.patch.assigns
              ++ l.filterMap (fun pe =>
                  if pe.2 = DropFlagState.Absent ∨ allowInit = true then
                    (lookupFlag c.flags pe.1).map (fun f => (loc, f, pe.2.value))
                  else none) } } := by
  intro l
  induction l with
  | nil => intro c; simp
  | cons pe rest ih =>
      intro c
      simp only [List.foldl_cons, List.filterMap_cons]
      by_cases hc : pe.2 = DropFlagState.Absent ∨ allowInit = true
      · rw [if_pos hc, if_pos hc]
        cases hf : lookupFlag c.flags pe.1 with
        | none =>
            rw [setDropFlag_eq_none loc pe.2 hf, ih]
            rfl
        | some f =>
            rw [setDropFlag_eq_some loc pe.2 hf, ih]
            simp [List.append_assoc]
      · rw [if_neg hc, if_neg hc, ih]

lemma emitLocEffects_eq (env : Env) (c : Ctxt) (loc : Location) (allowInit : Bool) :
    emitLocEffects env c loc allowInit
      = { c with patch := { c.patch with
          assigns := c.patch.assigns ++ effectWrites env c.flags loc allowInit } } := by
  unfold emitLocEffects effectWrites
  exact foldl_emit loc allowInit (env.locFlagEffects loc) c

lemma foldl_setPresent (loc : Location) :
    ∀ (l : List MovePath) (c : Ctxt),
      l.foldl (fun s child => setDropFlag s loc child .Present) c
        = { c with patch := { c.patch with
            assigns := c.patch.assigns ++ presentWrites c.flags loc l } } := by
  intro l
  induction l with
  | nil => intro c; simp [presentWrites]
  | cons ch rest ih =>
      intro c
      simp only [List.foldl_cons, presentWrites, List.filterMap_cons]
      cases hf : lookupFlag c.flags ch with
      | none =>
          rw [setDropFlag_eq_none loc .Present hf, ih]
          simp [presentWrites]
      | some f =>
          rw [setDropFlag_eq_some loc .Present hf, ih]
          simp [presentWrites, DropFlagState.value, List.append_assoc]

lemma foldl_emitRange (env : Env) (bb : Nat) :
    ∀ (l : List Nat) (c : Ctxt),
      l.foldl (fun s i => emitLocEffects env s ⟨bb, i⟩ true) c
        = { c with patch := { c.patch with
            assigns := c.patch.assigns
              ++ l.flatMap (fun i => effectWrites env c.flags ⟨bb, i⟩ true) } } := by
  intro l
  induction l with
  | nil => intro c; simp
  | cons i rest ih =>
      intro c
      simp only [List.foldl_cons, List.flatMap_cons]
      rw [emitLocEffects_eq, ih]
      simp [List.append_assoc]

lemma foldlM_eq_foldl {α : Type} (step : Ctxt → α → Option Ctxt) (g : Ctxt → α → Ctxt)
    (l : List α) (hstep : ∀ c a, a ∈ l → step c a = some (g c a)) :
    ∀ c, l.foldlM step c = some (l.foldl g c) := by
  induction l with
  | nil => intro c; simp
  | cons a as ih =>
      intro c
      simp only [List.foldlM_cons, List.foldl_cons]
      rw [hstep c a (by simp)]
      exact ih (fun c a ha => hstep c a (by simp [ha])) (g c a)

lemma foldlM_opt_append {α : Type} (step : Ctxt → α → Option Ctxt) :
    ∀ (l1 l2 : List α) (c : Ctxt),
      (l1 ++ l2).foldlM step c
        = (l1.foldlM step c).bind (fun cm => l2.foldlM step cm) := by
  intro l1
  induction l1 with
  | nil => intro l2 c; simp
  | cons a as ih =>
      intro l2 c
      simp only [List.cons_append, List.foldlM_cons]
      cases step c a with
      | none => simp
      | some c1 => simp [ih]

/-- The statement loop of `drop_flags_for_locs` over a block, run up to but
not including the terminator index: every statement location emits its
effects with initializations allowed. -/
lemma locsLoop_stmts (env : Env) (bb : Nat) (data : BlockData) (c : Ctxt) :
    (List.range data.statements.length).foldlM (locsStep env bb data) c
      = some ((List.range data.statements.length).foldl
          (fun s i => emitLocEffects env s ⟨bb, i⟩ true) c) := by
  refine foldlM_eq_foldl _ _ _ (fun s i hi => ?_) c
  have hlt : i < data.statements.length := List.mem_range.mp hi
  unfold locsStep
  rw [if_neg (Nat.ne_of_lt hlt)]

/-- The full statement loop of a block: the statement indices all emit with
initializations allowed, and the terminator index behaves as `hterm` says. -/
lemma locsLoop_eq (env : Env) (bb : Nat) (data : BlockData) (c out : Ctxt)
    (hterm : locsStep env bb data
        ((List.range data.statements.length).foldl
          (fun s i => emitLocEffects env s ⟨bb, i⟩ true) c) data.statements.length = some out) :
    (List.range (data.statements.length + 1)).foldlM (locsStep env bb data) c = some out := by
  rw [List.range_succ, foldlM_opt_append, locsLoop_stmts]
  simp [hterm]

lemma emitRange_flags (env : Env) (bb : Nat) (l : List Nat) (c : Ctxt) :
    (l.foldl (fun s i => emitLocEffects env s ⟨bb, i⟩ true) c).flags = c.flags := by
  rw [foldl_emitRange]

lemma emitRange_termPatches (env : Env) (bb : Nat) (l : List Nat) (c : Ctxt) :
    (l.foldl (fun s i => emitLocEffects env s ⟨bb, i⟩ true) c).patch.termPatches
      = c.patch.termPatches := by
  rw [foldl_emitRange]

/-- Claim C6 (amended): in the per-statement sweep, a block with a
destruction-marker terminator still emits the externally computed effects at
each of its statement locations — only the terminator location is skipped;
a drop-and-replace terminator additionally emits the effects of its
terminator location with initializations disallowed, and every such write
stores false (the present half is deferred). -/
theorem claim_C6 (env : Env) (c : Ctxt) (bb : Nat) (data : BlockData)
    (hr : env.reachable bb = true) :
    (∀ pl t uw, data.terminator.kind = .drop pl t uw →
      locsBlock env c bb data
        = some { c with patch := { c.patch with
            assigns := c.patch.assigns
              ++ stmtWrites env c.flags bb data.statements.length } })
  ∧ (∀ pl v t uw, data.terminator.kind = .dropAndReplace pl v t uw →
      c.patch.isPatched bb = true →
      locsBlock env c bb data
        = some { c with patch := { c.patch with
            assigns := c.patch.assigns
              ++ stmtWrites env c.flags bb data.statements.length
              ++ effectWrites env c.flags (terminatorLoc bb data) false } })
  ∧ (∀ flags loc w, w ∈ effectWrites env flags loc false → w.2.2 = false) := by
  refine ⟨?_, ?_, ?_⟩
  · intro pl t uw hk
    unfold locsBlock
    rw [if_pos hr]
    rw [locsLoop_eq env bb data c _ (by unfold locsStep; rw [if_pos rfl, hk])]
    dsimp only
    rw [hk]
    dsimp only
    rw [foldl_emitRange]
    rfl
  · intro pl v t uw hk hp
    unfold locsBlock
    rw [if_pos hr]
    have hpm : ((List.range data.statements.length).foldl
        (fun s i => emitLocEffects env s ⟨bb, i⟩ true) c).patch.isPatched bb = true := by
      unfold MirPatch.isPatched
      rw [emitRange_termPatches]
      exact hp
    rw [locsLoop_eq env bb data c _
      (by unfold locsStep; rw [if_pos rfl, hk]; dsimp only; rw [if_pos hpm])]
    dsimp only
    rw [hk]
    dsimp only
    rw [emitLocEffects_eq, foldl_emitRange]
    rfl
  · intro flags loc w hw
    unfold effectWrites at hw
    obtain ⟨pe, hpe, heq⟩ := List.mem_filterMap.mp hw
    by_cases hc : pe.2 = DropFlagState.Absent ∨ false = true
    · rw [if_pos hc] at heq
      obtain ⟨f, hf, rfl⟩ := Option.map_eq_some'.mp heq
      have : pe.2 = DropFlagState.Absent := by
        rcases hc with h | h
        · exact h
        · cases h
      rw [this]
      rfl
    · rw [if_neg hc] at heq
      cases heq

/-- Counterexample to claim C6 as stated: block 0's terminator is a
destruction marker, yet the per-statement sweep emits a flag write for a
location inside that block (the statement location 0), so the block is not
skipped entirely. -/
theorem claim_C6_counterexample :
    cData6.terminator.kind = TerminatorKind.drop 0 1 none
      ∧ locsBlock cEnv6 cCtxt6 0 cData6
          = some { cCtxt6 with patch := { cCtxt6.patch with
              assigns := [(⟨0, 0⟩, 9, true)] } }
      ∧ ((⟨0, 0⟩ : Location), 9, true)
          ∈ ((locsBlock cEnv6 cCtxt6 0 cData6).getD default).patch.assigns := by
  refine ⟨rfl, by decide, by decide⟩

theorem claim_C6_witness :
    locsBlock cEnv6 cCtxt6 0 cData6
      = some { cCtxt6 with patch := { cCtxt6.patch with
          assigns := cCtxt6.patch.assigns
            ++ stmtWrites cEnv6 cCtxt6.flags 0 cData6.statements.length } } :=
  (claim_C6 cEnv6 cCtxt6 0 cData6 rfl).1 0 1 none rfl

/-- Claim C7: for a reachable, not-yet-patched call terminator with a normal
return target: with a cleanup successor, the destination's flagged move
paths are written present at statement 0 of the return block; without a
cleanup successor, they are written present at the call's own location (the
terminator location of the calling block), after that location's ordinary
effects. -/
theorem claim_C7 (env : Env) (c : Ctxt) (bb : Nat) (data : BlockData) (dest : Place) (tgt : Nat)
    (hr : env.reachable bb = true) (hp : c.patch.isPatched bb = false) :
    (∀ cu, data.terminator.kind = .call dest (some tgt) (some cu) →
      fnRetsBlock env c bb data
        = some { c with patch := { c.patch with
            assigns := c.patch.assigns
              ++ presentWrites c.flags ⟨tgt, 0⟩ (lookupChildren env (env.revLookup dest)) } })
  ∧ (data.terminator.kind = .call dest (some tgt) none →
      locsBlock env c bb data
        = some { c with patch := { c.patch with
            assigns := c.patch.assigns
              ++ stmtWrites env c.flags bb data.statements.length
              ++ effectWrites env c.flags (terminatorLoc bb data) true
              ++ presentWrites c.flags (terminatorLoc bb data)
                  (lookupChildren env (env.revLookup dest)) } }) := by
  constructor
  · intro cu hk
    unfold fnRetsBlock
    rw [if_pos hr, hk]
    dsimp only
    rw [if_neg (by rw [hp]; exact Bool.false_ne_true)]
    rw [foldl_setPresent]
  · intro hk
    unfold locsBlock
    rw [if_pos hr]
    have hpm : ((List.range data.statements.length).foldl
        (fun s i => emitLocEffects env s ⟨bb, i⟩ true) c).patch.isPatched bb = false := by
      unfold MirPatch.isPatched
      rw [emitRange_termPatches]
      exact hp
    rw [locsLoop_eq env bb data c _
      (by
        unfold locsStep
        rw [if_pos rfl, hk]
        dsimp only
        rw [if_neg (by rw [hpm]; exact Bool.false_ne_true)])]
    dsimp only
    rw [hk]
    dsimp only
    have hpm2 : (emitLocEffects env
        ((List.range data.statements.length).foldl
          (fun s i => emitLocEffects env s ⟨bb, i⟩ true) c)
        ⟨bb, data.statements.length⟩ true).patch.isPatched bb = false := by
      rw [emitLocEffects_eq]
      unfold MirPatch.isPatched
      dsimp only
      rw [emitRange_termPatches]
      exact hp
    rw [if_neg (by rw [hpm2]; exact Bool.false_ne_true)]
    rw [foldl_setPresent, emitLocEffects_eq, foldl_emitRange]
    rfl

theorem claim_C7_witness :
    locsBlock env7 ctxt7 0 ⟨[], ⟨0, .call 0 (some 1) none⟩, false⟩
      = some { ctxt7 with patch := { ctxt7.patch with
          assigns := [(⟨0, 0⟩, 7, true)] } } := by
  have h := (claim_C7 env7 ctxt7 0 ⟨[], ⟨0, .call 0 (some 1) none⟩, false⟩ 0 1 rfl rfl).2 rfl
  rw [h]
  rfl

/-- Claim C8 (amended): for a reachable destruction marker resolving only to
a tracked ancestor, the flag-collection phase raises a delayed diagnostic
iff the ancestor is maybe-dead AND the place's base local is not a
dereference temporary (and never changes the flag store or patch); the
elaboration phase separately raises a delayed diagnostic iff the marker's
span is not from a replace desugaring, regardless of the ancestor's state,
and leaves the marker unpatched (the pass keeps running in all cases; the
only patch activity is forcing the shared resume block). -/
theorem claim_C8 (env : Env) (c : Ctxt) (bb : Nat) (data : BlockData) (pl : Place) (t : Nat)
    (uw : Option Nat) (a : MovePath)
    (hr : env.reachable bb = true) (hk : data.terminator.kind = .drop pl t uw)
    (hl : env.revLookup ((env.derefer pl).getD pl) = .Parent (some a)) :
    (collectBlock env c bb data
        = if env.isDerefTemp (env.placeLocal ((env.derefer pl).getD pl)) = true then c
          else if env.uninits (terminatorLoc bb data) a = true then
            { c with diags := c.diags ++ [data.terminator.span] }
          else c)
  ∧ (data.isCleanup = false →
      elaborateDropBlock env c bb data
        = some { c with
            patch := (c.patch.resumeBlock).2,
            diags := c.diags
              ++ (if env.replaceDesugar data.terminator.span = true then []
                  else [data.terminator.span]) })
  ∧ (c.patch.resumeBlock).2.termPatches = c.patch.termPatches := by
  have hm : markerPlace data.terminator.kind = some pl := by
    rw [hk]
    rfl
  refine ⟨?_, ?_, resumeBlock_termPatches c.patch⟩
  · unfold collectBlock
    rw [if_pos hr, hm]
    dsimp only
    rw [hl]
    dsimp only
    rfl
  · intro hcl
    unfold elaborateDropBlock
    rw [if_pos hr]
    dsimp only
    rw [hk]
    dsimp only
    rw [hl]
    dsimp only
    rw [hcl]
    simp only [Bool.false_eq_true, if_false]
    by_cases hds : env.replaceDesugar data.terminator.span = true
    · rw [if_pos hds, if_pos hds]
      simp
    · rw [if_neg hds, if_neg hds]

/-- Counterexample to claim C8 as stated: the ancestor is not maybe-dead at
the marker, yet the pass raises a delayed diagnostic (during elaboration,
because the marker's span is not a replace desugaring); so a diagnostic is
not raised iff the ancestor is maybe-dead. -/
theorem claim_C8_counterexample :
    cEnv8.uninits (terminatorLoc 0 cData8) 0 = false
      ∧ ((elaborateDropBlock cEnv8 cCtxt8 0 cData8).getD default).diags = [3]
      ∧ (collectBlock cEnv8 cCtxt8 0 cData8).diags = [] := by
  refine ⟨rfl, by decide, by decide⟩

theorem claim_C8_witness :
    elaborateDropBlock cEnv8 cCtxt8 0 cData8
      = some { cCtxt8 with
          patch := (cCtxt8.patch.resumeBlock).2,
          diags := cCtxt8.diags ++ [cData8.terminator.span] } := by
  have h := (claim_C8 cEnv8 cCtxt8 0 cData8 5 1 none 0 rfl rfl rfl).2.1 rfl
  simpa using h

/-- Claim C10: in the flag-collection phase, a reachable destruction or
drop-and-replace marker that resolves only to a tracked ancestor is skipped
silently whenever its base local is a dereference temporary — no flag is
created and no diagnostic raised, whatever the ancestor's state. -/
theorem claim_C10 (env : Env) (c : Ctxt) (bb : Nat) (data : BlockData) (pl : Place)
    (a : MovePath)
    (hr : env.reachable bb = true)
    (hm : markerPlace data.terminator.kind = some pl)
    (hl : env.revLookup ((env.derefer pl).getD pl) = .Parent (some a))
    (hd : env.isDerefTemp (env.placeLocal ((env.derefer pl).getD pl)) = true) :
    collectBlock env c bb data = c := by
  unfold collectBlock
  rw [if_pos hr, hm]
  dsimp only
  rw [hl]
  dsimp only
  rw [if_pos hd]

theorem claim_C10_witness :
    collectBlock cEnv10 (initCtxt cEnv10) 0 ⟨[], ⟨4, .drop 2 1 none⟩, false⟩
      = initCtxt cEnv10 :=
  claim_C10 cEnv10 (initCtxt cEnv10) 0 ⟨[], ⟨4, .drop 2 1 none⟩, false⟩ 2 0
    rfl rfl rfl (by decide)

/-- Claim C9 (amended): every sweep of the elaboration context — flag
collection, drop elaboration, call-return flagging and the per-location
sweep — leaves an unreachable block's contribution empty (the state passes
through unchanged); the dead-unwind pruner, however, visits every block (see
the counterexample). -/
theorem claim_C9 (env : Env) (c : Ctxt) (bb : Nat) (data : BlockData)
    (hr : env.reachable bb = false) :
    collectBlock env c bb data = c
  ∧ elaborateDropBlock env c bb data = some c
  ∧ fnRetsBlock env c bb data = some c
  ∧ locsBlock env c bb data = some c := by
  have hr' : ¬ env.reachable bb = true := by
    rw [hr]
    exact Bool.false_ne_true
  refine ⟨?_, ?_, ?_, ?_⟩
  · unfold collectBlock
    rw [if_neg hr']
  · unfold elaborateDropBlock
    rw [if_neg hr']
  · unfold fnRetsBlock
    rw [if_neg hr']
  · unfold locsBlock
    rw [if_neg hr']

/-- Counterexample to claim C9 as stated: block 0 is unreachable, yet the
dead-unwind pruner rewrites it (it removes the unwind edge), because the
pruner iterates every block — the reachability set is only computed after
it has run. -/
theorem claim_C9_counterexample :
    cEnv9.reachable 0 = false
      ∧ cEnv9.blocks.get? 0 = some dropBlockU
      ∧ (removeDeadUnwinds cEnv9).get? 0 = some ⟨[], ⟨0, .drop 0 1 none⟩, false⟩
      ∧ (removeDeadUnwinds cEnv9).get? 0 ≠ cEnv9.blocks.get? 0 := by
  refine ⟨rfl, rfl, by decide, by decide⟩

theorem claim_C9_witness :
    collectBlock cEnv9 (initCtxt cEnv9) 0 dropBlockU = initCtxt cEnv9
      ∧ elaborateDropBlock cEnv9 (initCtxt cEnv9) 0 dropBlockU = some (initCtxt cEnv9) := by
  have h := claim_C9 cEnv9 (initCtxt cEnv9) 0 dropBlockU rfl
  exact ⟨h.1, h.2.1⟩

end ElabDrops
